import Mathlib

/-! Shallow embedding of `src/doc_to_word.py`: the Markdown section splitter
`split_sections`, the fenced-code extractor `extract_fenced_code`, and the
document-assembly logic of `build`, modelled over `List Char`.  The regular
expressions of the source are translated to explicit recursive scanners with
Python `re` semantics on these concrete patterns: leftmost search, greedy and
lazy repetition, the little backtracking the patterns allow. -/

/-- Python `\s` on the ASCII range (the whitespace the inputs here use). -/
def pySpace (c : Char) : Bool :=
  decide (c = ' ' ∨ c = '\t' ∨ c = '\n' ∨ c = '\r' ∨ c = '\x0b' ∨ c = '\x0c')

/-- Character class `[^:\n]` of the heading patterns. -/
def notColonNL (c : Char) : Bool := decide (¬ (c = ':' ∨ c = '\n'))

/-- Python `str.strip()`: drop leading and trailing whitespace. -/
def pyStrip (l : List Char) : List Char :=
  ((l.dropWhile pySpace).reverse.dropWhile pySpace).reverse

/-- Python `text.replace("\r\n", "\n")`: left-to-right, non-overlapping. -/
def replaceCRLF : List Char → List Char
  | '\r' :: '\n' :: rest => '\n' :: replaceCRLF rest
  | c :: rest => c :: replaceCRLF rest
  | [] => []

/-- The split pattern `\n?###\s+` without its optional leading newline,
anchored at the current position: `###`, one whitespace, then the rest of
the greedy whitespace run.  Returns the text after the match. -/
def matchHashes (s : List Char) : Option (List Char) :=
  match s with
  | a :: b :: c :: d :: rest =>
      if a = '#' ∧ b = '#' ∧ c = '#' ∧ pySpace d = true then
        some (rest.dropWhile pySpace)
      else none
  | _ => none

/-- The split pattern `\n?###\s+` anchored at the current position.  When the
optional `\n` is consumed and `###\s+` fails after it, the regex backtracks
to the empty alternative, which then needs `#` where the newline stands and
fails as well; one ordered attempt per alternative is therefore exact. -/
def matchMarker (s : List Char) : Option (List Char) :=
  match s with
  | c :: rest => if c = '\n' then matchHashes rest else matchHashes (c :: rest)
  | [] => none

/-- Scanner of `re.split(r"\n?###\s+", t)`: positions are tried left to
right, a match emits the accumulated chunk and scanning resumes after the
match.  `fuel` bounds the recursion; `reSplitMarker` passes `t.length + 1`,
which cannot run out since every step consumes at least one character. -/
def reSplitAux : Nat → List Char → List Char → List (List Char)
  | 0, acc, s => [acc.reverse ++ s]
  | fuel + 1, acc, s =>
      match matchMarker s with
      | some rem => acc.reverse :: reSplitAux fuel [] rem
      | none =>
          match s with
          | [] => [acc.reverse]
          | c :: rest => reSplitAux fuel (c :: acc) rest

/-- `re.split(r"\n?###\s+", t)` of line 40 of the source. -/
def reSplitMarker (t : List Char) : List (List Char) :=
  reSplitAux (t.length + 1) [] t

/-- Leading `([^:\n]+):` shared by both heading patterns (lines 46 and 49):
a nonempty colon-free newline-free prefix, then a literal colon.  Returns
group 1 and the text after the colon. -/
def matchG1 (s : List Char) : Option (List Char × List Char) :=
  if (s.takeWhile notColonNL).isEmpty then none
  else
    match s.dropWhile notColonNL with
    | c :: rest => if c = ':' then some (s.takeWhile notColonNL, rest) else none
    | [] => none

/-- Suffix after the last `'\n'` of a list, when it has one. -/
def afterLastNL : List Char → Option (List Char)
  | [] => none
  | c :: rest =>
      match afterLastNL rest with
      | some r => some r
      | none => if c = '\n' then some rest else none

/-- `re.match(r"([^:\n]+):\s*\n(.*)", ch, flags=re.S)` of line 46.  After
the colon, greedy `\s*` takes the maximal whitespace run and backtracks
until a `\n` follows: it succeeds exactly when the run holds a newline, and
group 2 starts after the last newline of the run. -/
def matchStrict (ch : List Char) : Option (List Char × List Char) :=
  match matchG1 ch with
  | some (g1, rest) =>
      match afterLastNL (rest.takeWhile pySpace) with
      | some tail => some (g1, tail ++ rest.dropWhile pySpace)
      | none => none
  | none => none

/-- `re.match(r"([^:\n]+):\s*(.*)", ch, flags=re.S)` of line 49: greedy
`\s*` takes the maximal whitespace run after the colon, group 2 is the
rest. -/
def matchFallback (ch : List Char) : Option (List Char × List Char) :=
  match matchG1 ch with
  | some (g1, rest) => some (g1, rest.dropWhile pySpace)
  | none => none

/-- One iteration of the loop of lines 42-53: a whitespace-only chunk is
skipped, else the strict pattern is tried before the single-line fallback,
and a match contributes `(group1.strip(), group2.strip())`. -/
def chunkEntry (ch : List Char) : Option (List Char × List Char) :=
  if (pyStrip ch).isEmpty then none
  else
    match matchStrict ch with
    | some (g1, g2) => some (pyStrip g1, pyStrip g2)
    | none =>
        match matchFallback ch with
        | some (g1, g2) => some (pyStrip g1, pyStrip g2)
        | none => none

/-- The `(key, val)` pairs the loop of `split_sections` assigns, in order. -/
def sectionEntries (md_text : List Char) : List (List Char × List Char) :=
  (reSplitMarker (replaceCRLF md_text)).filterMap chunkEntry

/-- Python `dict` assignment `d[k] = v`: replace the value in place when the
key is present, else append the new pair at the end. -/
def dictInsert (k v : List Char) :
    List (List Char × List Char) → List (List Char × List Char)
  | [] => [(k, v)]
  | (k0, v0) :: rest =>
      if k0 = k then (k, v) :: rest else (k0, v0) :: dictInsert k v rest

/-- Python `dict` lookup (keys built by `dictInsert` are unique). -/
def dictGet (d : List (List Char × List Char)) (k : List Char) : Option (List Char) :=
  match d with
  | [] => none
  | (k0, v0) :: rest => if k0 = k then some v0 else dictGet rest k

/-- `split_sections` of lines 32-54: normalize `\r\n`, split on the heading
marker, parse each chunk, collect the entries into a dict (insertion order,
a later assignment to the same key overwriting in place). -/
def split_sections (md_text : List Char) : List (List Char × List Char) :=
  (sectionEntries md_text).foldl (fun d kv => dictInsert kv.1 kv.2 d) []

/-- Suffix after the first `'\n'`: the `` ```[^\n]*\n `` part of the fence
pattern is greedy to the first newline, which must exist. -/
def dropThroughFirstNL : List Char → Option (List Char)
  | [] => none
  | c :: rest => if c = '\n' then some rest else dropThroughFirstNL rest

/-- Does the text start with the triple-backtick marker? -/
def startsTicks : List Char → Bool
  | a :: b :: c :: _ => decide (a = '\x60') && decide (b = '\x60') && decide (c = '\x60')
  | _ => false

/-- Lazy `(.*?)` before the closing triple backtick: the text before the
first occurrence of the marker, `none` when the marker never occurs. -/
def takeUntilTicks : List Char → Option (List Char)
  | [] => none
  | a :: rest =>
      if startsTicks (a :: rest) then some []
      else
        match takeUntilTicks rest with
        | some g => some (a :: g)
        | none => none

/-- One anchored attempt of `` ```[^\n]*\n(.*?)``` `` at the current
position. -/
def fenceMatchHere (s : List Char) : Option (List Char) :=
  if startsTicks s then
    match dropThroughFirstNL (s.drop 3) with
    | some after => takeUntilTicks after
    | none => none
  else none

/-- `re.search`: anchored attempts left to right, first success wins. -/
def searchFence : List Char → Option (List Char)
  | [] => none
  | c :: rest =>
      match fenceMatchHere (c :: rest) with
      | some g => some g
      | none => searchFence rest

/-- Python `.rstrip("\n")`: drop trailing newline characters only. -/
def rstripNL (l : List Char) : List Char :=
  (l.reverse.dropWhile (fun c => decide (c = '\n'))).reverse

/-- `extract_fenced_code` of lines 77-82. -/
def extract_fenced_code (md : List Char) : Option (List Char) :=
  (searchFence md).map rstripNL

/-- Python `str.splitlines` line-boundary characters. -/
def isLineBreakChar (c : Char) : Bool :=
  decide (c = '\n' ∨ c = '\r' ∨ c = '\x0b' ∨ c = '\x0c' ∨ c = '\x1c' ∨
    c = '\x1d' ∨ c = '\x1e' ∨ c = '\x85' ∨ c = '\u2028' ∨ c = '\u2029')

/-- Python `str.splitlines`: `\r\n` counts as one boundary, and a trailing
boundary produces no empty final line. -/
def splitlinesAux (acc : List Char) : List Char → List (List Char)
  | [] => if acc.isEmpty then [] else [acc.reverse]
  | '\r' :: '\n' :: rest => acc.reverse :: splitlinesAux [] rest
  | c :: rest =>
      if isLineBreakChar c then acc.reverse :: splitlinesAux [] rest
      else splitlinesAux (c :: acc) rest

/-- Python `content.splitlines()`. -/
def splitlines (s : List Char) : List (List Char) := splitlinesAux [] s

/-- The bullet extraction of line 123: the lines of the content whose
stripped form starts with `"- "`, each contributing the original line minus
its first two characters, stripped. -/
def bulletItems (content : List Char) : List (List Char) :=
  (splitlines content).filterMap fun ln =>
    if ("- ".toList).isPrefixOf (pyStrip ln) then some (pyStrip (ln.drop 2))
    else none

/-- Python `split("\n")`: exact single-character separator, keeping empty
pieces. -/
def splitOnNL : List Char → List (List Char)
  | [] => [[]]
  | c :: rest =>
      if c = '\n' then [] :: splitOnNL rest
      else
        match splitOnNL rest with
        | l :: ls => (c :: l) :: ls
        | [] => [[c]]

/-- The paragraphs `build` appends to the template document, by style: the
document title, a level-2 heading, a normal-text paragraph, one bullet of a
list, one line of a code block. -/
inductive DocElem where
  | title (text : List Char)
  | heading (text : List Char)
  | para (text : List Char)
  | listItem (text : List Char)
  | codeLine (text : List Char)
deriving DecidableEq, Repr

/-- `add_code_block` of lines 56-75, as the paragraphs it appends: one
`codeLine` per line of the normalized text, an empty line becoming a single
space.  The docx style lookup and the run line breaks carry no text and are
not modelled. -/
def add_code_block (text : List Char) : List DocElem :=
  (splitOnNL (replaceCRLF text)).map fun line =>
    DocElem.codeLine (if line.isEmpty then [' '] else line)

/-- `SECTION_KEYS` of lines 24-27. -/
def SECTION_KEYS : List (List Char) :=
  [("Título".toList), ("Descrição".toList), ("Entradas".toList),
   ("Saídas".toList), ("Fluxo de Execução".toList), ("Dependências".toList),
   ("Erros Comuns".toList), ("Exemplo de Uso".toList)]

/-- The four list-style keys of line 121. -/
def listKeys : List (List Char) :=
  [("Entradas".toList), ("Saídas".toList), ("Dependências".toList),
   ("Erros Comuns".toList)]

/-- Python truthiness of an optional string: present and nonempty. -/
def pyTruthy (v : Option (List Char)) : Bool :=
  match v with
  | some s => !s.isEmpty
  | none => false

/-- Lines 118-134 for one key whose content is truthy: the level-2 heading,
then the bullet list, the fenced example, or a plain paragraph. -/
def renderSection (key content : List Char) : List DocElem :=
  DocElem.heading key ::
    (if key ∈ listKeys then
      if (bulletItems content).isEmpty then [DocElem.para content]
      else (bulletItems content).map DocElem.listItem
    else if key = ("Exemplo de Uso".toList) ∧
        pyTruthy (extract_fenced_code content) = true then
      add_code_block ((extract_fenced_code content).getD [])
    else [DocElem.para content])

/-- Lines 136-139: the synthesized example heading and code block, emitted
exactly when the mapping has the key `"Exemplo de Uso"`, the fenced code of
that entry's content is falsy (absent or empty), and the fenced code of the
whole original text is truthy. -/
def exampleFallback (sections : List (List Char × List Char))
    (code_from_md : Option (List Char)) : List DocElem :=
  match dictGet sections ("Exemplo de Uso".toList) with
  | none => []
  | some content =>
      if pyTruthy (extract_fenced_code content) then []
      else
        match code_from_md with
        | none => []
        | some code =>
            if code.isEmpty then []
            else DocElem.heading ("Exemplo de Uso".toList) :: add_code_block code

/-- Lines 106-111: the document title, `sections.get("Título") or src.name`
(the name when the entry is absent or empty). -/
def buildTitle (sections : List (List Char × List Char)) (srcName : List Char) : DocElem :=
  DocElem.title
    (match dictGet sections ("Título".toList) with
     | some v => if v.isEmpty then srcName else v
     | none => srcName)

/-- Lines 113-134: the loop over `SECTION_KEYS` in order, skipping keys with
falsy content. -/
def buildLoop (sections : List (List Char × List Char)) : List DocElem :=
  (SECTION_KEYS.map fun key =>
    match dictGet sections key with
    | none => []
    | some content => if content.isEmpty then [] else renderSection key content).flatten

/-- Lines 141-144: the optional full source appendix. -/
def buildTail (source_code : List Char) (include_source : Bool) : List DocElem :=
  if include_source then
    DocElem.heading ("Código-Fonte (Anexo)".toList) :: add_code_block source_code
  else []

/-- The document assembly of `build` (lines 99-144) once the input files are
read: the sequence of elements appended to the template document, in the
order the source appends them.  `srcName` stands for `src.name`,
`source_code` for the text of the source file. -/
def build (md_text srcName source_code : List Char)
    (include_source : Bool) : List DocElem :=
  buildTitle (split_sections md_text) srcName ::
    (buildLoop (split_sections md_text)
      ++ exampleFallback (split_sections md_text) (extract_fenced_code md_text)
      ++ buildTail source_code include_source)

/-- Does the marker `` ``` `` occur anywhere in the text? -/
def hasTicks : List Char → Bool
  | [] => false
  | a :: rest => startsTicks (a :: rest) || hasTicks rest

/-- Does the text end in a newline?  Used to state what `rstripNL` leaves. -/
def endsWithNL (m : List Char) : Bool :=
  match m.reverse with
  | c :: _ => decide (c = '\n')
  | [] => false

/-- The value attached to the last assignment of a key in an entry list:
the reference for the last-write-wins behaviour of the section dict. -/
def lastLookup (es : List (List Char × List Char)) (k : List Char) : Option (List Char) :=
  match es with
  | [] => none
  | (k0, v0) :: rest =>
      match lastLookup rest k with
      | some v => some v
      | none => if k0 = k then some v0 else none

/-! General helper lemmas about the scanners. -/

theorem mem_of_mem_dropWhile {p : Char → Bool} {l : List Char} {c : Char}
    (h : c ∈ l.dropWhile p) : c ∈ l :=
  (List.dropWhile_sublist p).subset h

theorem dropWhile_head_false {p : Char → Bool} :
    ∀ {l : List Char} {c : Char}, (l.dropWhile p).head? = some c → p c = false := by
  intro l
  induction l with
  | nil => intro c h; simp [List.dropWhile] at h
  | cons a l ih =>
      intro c h
      by_cases hp : p a = true
      · rw [List.dropWhile_cons, if_pos hp] at h
        exact ih h
      · rw [List.dropWhile_cons, if_neg hp] at h
        have : a = c := by simpa using h
        subst this
        exact Bool.not_eq_true _ |>.mp hp

theorem dropWhile_eq_self_of_head {p : Char → Bool} {l : List Char}
    (h : ∀ c, l.head? = some c → p c = false) : l.dropWhile p = l := by
  cases l with
  | nil => rfl
  | cons a l => rw [List.dropWhile_cons, if_neg (by simp [h a rfl])]

theorem pyStrip_mem {l : List Char} {c : Char} (h : c ∈ pyStrip l) : c ∈ l := by
  unfold pyStrip at h
  rw [List.mem_reverse] at h
  have h2 := mem_of_mem_dropWhile h
  rw [List.mem_reverse] at h2
  exact mem_of_mem_dropWhile h2

theorem pyStrip_idem (l : List Char) : pyStrip (pyStrip l) = pyStrip l := by
  unfold pyStrip
  cases hB : (l.dropWhile pySpace).reverse.dropWhile pySpace with
  | nil => simp
  | cons b B' =>
      have hb : pySpace b = false := dropWhile_head_false (by rw [hB]; rfl)
      have hBne : (l.dropWhile pySpace).reverse.dropWhile pySpace ≠ [] := by
        rw [hB]; exact List.cons_ne_nil _ _
      have hlast : ((l.dropWhile pySpace).reverse.dropWhile pySpace).getLast? =
          (l.dropWhile pySpace).reverse.getLast? := by
        conv_rhs =>
          rw [← List.takeWhile_append_dropWhile pySpace (l.dropWhile pySpace).reverse]
        rw [List.getLast?_append_of_ne_nil _ hBne]
      have hA : (l.dropWhile pySpace).reverse.getLast? = (l.dropWhile pySpace).head? := by
        rw [List.getLast?_reverse]
      have hheadA : ∀ c, (l.dropWhile pySpace).head? = some c → pySpace c = false :=
        fun c hc => dropWhile_head_false hc
      have h1 : (((l.dropWhile pySpace).reverse.dropWhile pySpace).reverse).dropWhile pySpace =
          ((l.dropWhile pySpace).reverse.dropWhile pySpace).reverse := by
        apply dropWhile_eq_self_of_head
        intro c hc
        rw [List.head?_reverse, hlast, hA] at hc
        exact hheadA c hc
      rw [hB] at h1
      rw [h1, List.reverse_reverse, List.dropWhile_cons, if_neg (by simp [hb])]

/-! Lemmas about the fence scanner. -/

theorem startsTicks_cons_false {a : Char} (ha : a ≠ '\x60') (l : List Char) :
    startsTicks (a :: l) = false := by
  cases l with
  | nil => rfl
  | cons b l' =>
      cases l' with
      | nil => rfl
      | cons c l'' => simp [startsTicks, ha]

theorem startsTicks_decomp {s : List Char} (h : startsTicks s = true) :
    ∃ rest, s = '\x60' :: '\x60' :: '\x60' :: rest := by
  match s with
  | [] => simp [startsTicks] at h
  | [a] => simp [startsTicks] at h
  | [a, b] => simp [startsTicks] at h
  | a :: b :: c :: rest =>
      simp only [startsTicks, Bool.and_eq_true, decide_eq_true_eq] at h
      obtain ⟨⟨h1, h2⟩, h3⟩ := h
      exact ⟨rest, by rw [h1, h2, h3]⟩

theorem fenceMatchHere_of_startsTicks_false {s : List Char}
    (h : startsTicks s = false) : fenceMatchHere s = none := by
  unfold fenceMatchHere
  rw [h]
  rfl

theorem searchFence_append_no_ticks {A : List Char} (hA : '\x60' ∉ A) (s : List Char) :
    searchFence (A ++ s) = searchFence s := by
  induction A with
  | nil => rfl
  | cons a A ih =>
      have ha : a ≠ '\x60' := fun h => hA (h ▸ List.mem_cons_self a A)
      have hA' : '\x60' ∉ A := fun h => hA (List.mem_cons_of_mem a h)
      rw [List.cons_append]
      show (match fenceMatchHere (a :: (A ++ s)) with
            | some g => some g
            | none => searchFence (A ++ s)) = searchFence s
      rw [fenceMatchHere_of_startsTicks_false (startsTicks_cons_false ha _)]
      exact ih hA'

theorem dropThroughFirstNL_append {tag : List Char} (h : '\n' ∉ tag) (rest : List Char) :
    dropThroughFirstNL (tag ++ '\n' :: rest) = some rest := by
  induction tag with
  | nil => simp [dropThroughFirstNL]
  | cons a tag ih =>
      have ha : a ≠ '\n' := fun hh => h (hh ▸ List.mem_cons_self a tag)
      have h' : '\n' ∉ tag := fun hh => h (List.mem_cons_of_mem a hh)
      rw [List.cons_append]
      show dropThroughFirstNL (a :: (tag ++ '\n' :: rest)) = some rest
      rw [dropThroughFirstNL, if_neg (by simp [eq_comm] at ha ⊢; exact ha)]
      exact ih h'

theorem takeUntilTicks_append {B : List Char} (hB : '\x60' ∉ B) (C : List Char) :
    takeUntilTicks (B ++ '\x60' :: '\x60' :: '\x60' :: C) = some B := by
  induction B with
  | nil =>
      rw [List.nil_append]
      rw [takeUntilTicks, if_pos (by simp [startsTicks])]
  | cons b B ih =>
      have hb : b ≠ '\x60' := fun h => hB (h ▸ List.mem_cons_self b B)
      have hB' : '\x60' ∉ B := fun h => hB (List.mem_cons_of_mem b h)
      rw [List.cons_append, takeUntilTicks,
        if_neg (by simp [startsTicks_cons_false hb]), ih hB']

theorem takeUntilTicks_eq_none {B : List Char} (hB : '\x60' ∉ B) :
    takeUntilTicks B = none := by
  induction B with
  | nil => rfl
  | cons b B ih =>
      have hb : b ≠ '\x60' := fun h => hB (h ▸ List.mem_cons_self b B)
      have hB' : '\x60' ∉ B := fun h => hB (List.mem_cons_of_mem b h)
      rw [takeUntilTicks, if_neg (by simp [startsTicks_cons_false hb]), ih hB']

theorem searchFence_of_no_ticks : ∀ {s : List Char}, hasTicks s = false →
    searchFence s = none := by
  intro s
  induction s with
  | nil => intro _; rfl
  | cons a s ih =>
      intro h
      rw [hasTicks, Bool.or_eq_false_iff] at h
      show (match fenceMatchHere (a :: s) with
            | some g => some g
            | none => searchFence s) = none
      rw [fenceMatchHere_of_startsTicks_false h.1]
      exact ih h.2

theorem dropThroughFirstNL_decomp : ∀ {s r : List Char}, dropThroughFirstNL s = some r →
    ∃ tag, s = tag ++ '\n' :: r ∧ '\n' ∉ tag := by
  intro s
  induction s with
  | nil => intro r h; exact absurd h (by simp [dropThroughFirstNL])
  | cons c rest ih =>
      intro r h
      by_cases hc : c = '\n'
      · subst hc
        rw [dropThroughFirstNL, if_pos rfl] at h
        obtain rfl : rest = r := by simpa using h
        exact ⟨[], rfl, by simp⟩
      · rw [dropThroughFirstNL, if_neg hc] at h
        obtain ⟨tag, h1, h2⟩ := ih h
        refine ⟨c :: tag, by rw [List.cons_append, h1], ?_⟩
        intro hmem
        rcases List.mem_cons.mp hmem with h3 | h3
        · exact hc h3.symm
        · exact h2 h3

theorem takeUntilTicks_decomp : ∀ {s g : List Char}, takeUntilTicks s = some g →
    ∃ post, s = g ++ '\x60' :: '\x60' :: '\x60' :: post := by
  intro s
  induction s with
  | nil => intro g h; exact absurd h (by simp [takeUntilTicks])
  | cons a rest ih =>
      intro g h
      by_cases hs : startsTicks (a :: rest) = true
      · rw [takeUntilTicks, if_pos hs] at h
        obtain rfl : ([] : List Char) = g := by simpa using h
        obtain ⟨r, hr⟩ := startsTicks_decomp hs
        exact ⟨r, by rw [List.nil_append, hr]⟩
      · rw [takeUntilTicks, if_neg hs] at h
        cases htk : takeUntilTicks rest with
        | none => rw [htk] at h; exact absurd h (by simp)
        | some g' =>
            rw [htk] at h
            obtain rfl : a :: g' = g := by simpa using h
            obtain ⟨post, hp⟩ := ih htk
            exact ⟨post, by rw [List.cons_append, hp]⟩

theorem searchFence_decomp : ∀ {s g : List Char}, searchFence s = some g →
    ∃ u tag post,
      s = u ++ '\x60' :: '\x60' :: '\x60' ::
        (tag ++ '\n' :: (g ++ '\x60' :: '\x60' :: '\x60' :: post)) ∧ '\n' ∉ tag := by
  intro s
  induction s with
  | nil => intro g h; exact absurd h (by simp [searchFence])
  | cons a rest ih =>
      intro g h
      have hstep : searchFence (a :: rest) =
          (match fenceMatchHere (a :: rest) with
           | some g => some g
           | none => searchFence rest) := rfl
      rw [hstep] at h
      cases hf : fenceMatchHere (a :: rest) with
      | some g0 =>
          rw [hf] at h
          obtain rfl : g0 = g := by simpa using h
          by_cases hs : startsTicks (a :: rest) = true
          · rw [fenceMatchHere, if_pos hs] at hf
            cases hd : dropThroughFirstNL ((a :: rest).drop 3) with
            | none => rw [hd] at hf; exact absurd hf (by simp)
            | some after =>
                rw [hd] at hf
                obtain ⟨r, hr⟩ := startsTicks_decomp hs
                obtain ⟨tag, htag, hnotag⟩ := dropThroughFirstNL_decomp (by
                  rw [hr] at hd; simpa using hd)
                obtain ⟨post, hpost⟩ := takeUntilTicks_decomp hf
                refine ⟨[], tag, post, ?_, hnotag⟩
                rw [List.nil_append, hr, htag, hpost]
          · rw [fenceMatchHere_of_startsTicks_false
              (Bool.not_eq_true _ |>.mp hs)] at hf
            exact absurd hf (by simp)
      | none =>
          rw [hf] at h
          obtain ⟨u, tag, post, h1, h2⟩ := ih h
          exact ⟨a :: u, tag, post, by rw [List.cons_append, h1], h2⟩

theorem hasTicks_false_of_no_tick {s : List Char} (h : '\x60' ∉ s) :
    hasTicks s = false := by
  induction s with
  | nil => rfl
  | cons a s ih =>
      have ha : a ≠ '\x60' := fun hh => h (hh ▸ List.mem_cons_self a s)
      rw [hasTicks, startsTicks_cons_false ha, Bool.false_or]
      exact ih fun hh => h (List.mem_cons_of_mem a hh)

theorem startsTicks_false_of_second {a b : Char} (hb : b ≠ '\x60') (l : List Char) :
    startsTicks (a :: b :: l) = false := by
  cases l with
  | nil => rfl
  | cons c l' => simp [startsTicks, hb]

theorem startsTicks_false_of_third {a b c : Char} (hc : c ≠ '\x60') (l : List Char) :
    startsTicks (a :: b :: c :: l) = false := by
  simp [startsTicks, hc]

theorem searchFence_cons_none {a : Char} {rest : List Char}
    (h1 : fenceMatchHere (a :: rest) = none) (h2 : searchFence rest = none) :
    searchFence (a :: rest) = none := by
  show (match fenceMatchHere (a :: rest) with
        | some g => some g
        | none => searchFence rest) = none
  rw [h1, h2]

/-- C4: `split_sections` accepts both grammar variants — on the two-section
multi-line text it returns the two entries, and on the single-line form
`"### Título: Hello\n"` it returns the one entry with the same-line value. -/
theorem C4_both_grammar_variants :
    split_sections ("### Título:\nHello\n### Descrição:\nWorld\n".toList) =
      [(("Título".toList), ("Hello".toList)), (("Descrição".toList), ("World".toList))] ∧
    split_sections ("### Título: Hello\n".toList) =
      [(("Título".toList), ("Hello".toList))] := by
  constructor
  · decide
  · decide

/-- C6: on `"```python\nprint(1)\n```"` the extractor returns `"print(1)"`
(language tag discarded, trailing newline stripped); in general the raw
match is the stripped result followed by newlines only, and the stripped
result never ends in a newline — leading and internal text is kept
verbatim. -/
theorem C6_language_tag_and_rstrip :
    extract_fenced_code ("```python\nprint(1)\n```".toList) = some ("print(1)".toList) ∧
    (∀ l : List Char, ∃ k, l = rstripNL l ++ List.replicate k '\n') ∧
    ∀ l : List Char, endsWithNL (rstripNL l) = false := by
  refine ⟨by decide, fun l => ?_, fun l => ?_⟩
  · refine ⟨((l.reverse.takeWhile fun c => decide (c = '\n')).reverse).length, ?_⟩
    have h1 : l = ((l.reverse.dropWhile fun c => decide (c = '\n')).reverse) ++
        ((l.reverse.takeWhile fun c => decide (c = '\n')).reverse) := by
      calc l = l.reverse.reverse := (List.reverse_reverse l).symm
        _ = ((l.reverse.takeWhile fun c => decide (c = '\n')) ++
            (l.reverse.dropWhile fun c => decide (c = '\n'))).reverse := by
              rw [List.takeWhile_append_dropWhile]
        _ = _ := by rw [List.reverse_append]
      
    have hall : ∀ b ∈ (l.reverse.takeWhile fun c => decide (c = '\n')).reverse,
        b = '\n' := by
      intro b hb
      have := List.mem_takeWhile_imp (List.mem_reverse.mp hb)
      simpa using this
    have h2 := List.eq_replicate_of_mem hall
    rw [rstripNL]
    conv_lhs => rw [h1]
    rw [← h2]
  · rw [endsWithNL, rstripNL, List.reverse_reverse]
    cases hD : l.reverse.dropWhile fun c => decide (c = '\n') with
    | nil => rfl
    | cons c rest =>
        have h := dropWhile_head_false (l := l.reverse) (c := c) (by rw [hD]; rfl)
        simpa using h

/-- Witness for C6: the general decomposition applied to `"x\n\n"`. -/
theorem C6_witness :
    ∃ k, ("x\n\n".toList) = rstripNL ("x\n\n".toList) ++ List.replicate k '\n' :=
  C6_language_tag_and_rstrip.2.1 ("x\n\n".toList)

/-- C7: with the first opening marker at the end of a marker-free prefix, a
newline-free language tag, and a marker-free body, the extractor returns
exactly that body (stripped of trailing newlines), whatever follows the
first closing marker — in particular further fenced blocks in `C` are
ignored, the body may span lines and blank lines, and the first closing
marker ends the match (non-greedy). -/
theorem C7_first_block_non_greedy (A tag B C : List Char)
    (hA : '\x60' ∉ A) (hn : '\n' ∉ tag) (hB : '\x60' ∉ B) :
    extract_fenced_code (A ++ '\x60' :: '\x60' :: '\x60' ::
      (tag ++ '\n' :: (B ++ '\x60' :: '\x60' :: '\x60' :: C))) =
      some (rstripNL B) := by
  unfold extract_fenced_code
  rw [searchFence_append_no_ticks hA]
  have hmatch : fenceMatchHere ('\x60' :: '\x60' :: '\x60' ::
      (tag ++ '\n' :: (B ++ '\x60' :: '\x60' :: '\x60' :: C))) = some B := by
    rw [fenceMatchHere, if_pos (by simp [startsTicks])]
    have hd : dropThroughFirstNL (List.drop 3 ('\x60' :: '\x60' :: '\x60' ::
        (tag ++ '\n' :: (B ++ '\x60' :: '\x60' :: '\x60' :: C)))) =
        some (B ++ '\x60' :: '\x60' :: '\x60' :: C) := by
      simp only [List.drop_succ_cons, List.drop_zero]
      exact dropThroughFirstNL_append hn _
    rw [hd]
    exact takeUntilTicks_append hB C
  have hsf : searchFence ('\x60' :: '\x60' :: '\x60' ::
      (tag ++ '\n' :: (B ++ '\x60' :: '\x60' :: '\x60' :: C))) = some B := by
    show (match fenceMatchHere ('\x60' :: '\x60' :: '\x60' ::
          (tag ++ '\n' :: (B ++ '\x60' :: '\x60' :: '\x60' :: C))) with
          | some g => some g
          | none => searchFence ('\x60' :: '\x60' ::
              (tag ++ '\n' :: (B ++ '\x60' :: '\x60' :: '\x60' :: C)))) = some B
    rw [hmatch]
  rw [hsf]
  rfl

/-- Witness for C7: a text with two fenced blocks, only the first returned. -/
theorem C7_witness :
    extract_fenced_code (("intro\n".toList) ++ '\x60' :: '\x60' :: '\x60' ::
      (("py".toList) ++ '\n' :: (("a 1\n\nb 2\n".toList) ++
        '\x60' :: '\x60' :: '\x60' :: ("\nsecond\n```\nC2\n```".toList)))) =
      some (rstripNL ("a 1\n\nb 2\n".toList)) :=
  C7_first_block_non_greedy ("intro\n".toList) ("py".toList)
    ("a 1\n\nb 2\n".toList) ("\nsecond\n```\nC2\n```".toList)
    (by decide) (by decide) (by decide)

/-- C8: on a text with no triple-backtick marker anywhere, and likewise on a
text whose only fence opens but never closes, `extract_fenced_code` returns
the optional-absent result `none` rather than an error. -/
theorem C8_no_block_returns_none :
    (∀ s : List Char, hasTicks s = false → extract_fenced_code s = none) ∧
    (∀ pre tag body : List Char, '\x60' ∉ pre → '\x60' ∉ tag → '\n' ∉ tag →
      '\x60' ∉ body →
      extract_fenced_code (pre ++ '\x60' :: '\x60' :: '\x60' ::
        (tag ++ '\n' :: body)) = none) := by
  constructor
  · intro s h
    rw [extract_fenced_code, searchFence_of_no_ticks h]
    rfl
  · intro pre tag body hpre htag hn hbody
    rw [extract_fenced_code, searchFence_append_no_ticks hpre]
    have hX : '\x60' ∉ tag ++ '\n' :: body := by
      intro h
      rcases List.mem_append.mp h with h | h
      · exact htag h
      · rcases List.mem_cons.mp h with h | h
        · exact absurd h (by decide)
        · exact hbody h
    have hsf : searchFence ('\x60' :: '\x60' :: '\x60' ::
        (tag ++ '\n' :: body)) = none := by
      apply searchFence_cons_none
      · rw [fenceMatchHere, if_pos (by simp [startsTicks])]
        have hd : dropThroughFirstNL (List.drop 3 ('\x60' :: '\x60' :: '\x60' ::
            (tag ++ '\n' :: body))) = some body := by
          simp only [List.drop_succ_cons, List.drop_zero]
          exact dropThroughFirstNL_append hn _
        rw [hd]
        exact takeUntilTicks_eq_none hbody
      · apply searchFence_cons_none
        · apply fenceMatchHere_of_startsTicks_false
          cases tag with
          | nil => exact startsTicks_false_of_third (by decide) _
          | cons a tag' =>
              have ha : a ≠ '\x60' :=
                fun hh => htag (hh ▸ List.mem_cons_self a tag')
              rw [List.cons_append]
              exact startsTicks_false_of_third ha _
        · apply searchFence_cons_none
          · apply fenceMatchHere_of_startsTicks_false
            cases tag with
            | nil => exact startsTicks_false_of_second (by decide) _
            | cons a tag' =>
                have ha : a ≠ '\x60' :=
                  fun hh => htag (hh ▸ List.mem_cons_self a tag')
                rw [List.cons_append]
                exact startsTicks_false_of_second ha _
          · exact searchFence_of_no_ticks (hasTicks_false_of_no_tick hX)
    rw [hsf]
    rfl

/-- Witness for C8: applied to a text with no marker and to an unclosed
fence. -/
theorem C8_witness :
    extract_fenced_code ("plain text, nothing fenced.".toList) = none ∧
    extract_fenced_code (("before ".toList) ++ '\x60' :: '\x60' :: '\x60' ::
      (("py".toList) ++ '\n' :: ("never closed".toList))) = none :=
  ⟨C8_no_block_returns_none.1 ("plain text, nothing fenced.".toList) (by decide),
   C8_no_block_returns_none.2 ("before ".toList) ("py".toList)
     ("never closed".toList) (by decide) (by decide) (by decide) (by decide)⟩

/-- C10: whenever the extractor captures content, the text decomposes as an
opening marker, a newline-free language tag, a line break, the raw content
and a closing marker — the opening line must end in a line break before any
content is captured; hence a text without any newline, such as
`"```x```"`, yields the not-found result. -/
theorem C10_opening_fence_needs_newline :
    (∀ s g : List Char, extract_fenced_code s = some g →
      ∃ u tag g0 post, s = u ++ '\x60' :: '\x60' :: '\x60' ::
        (tag ++ '\n' :: (g0 ++ '\x60' :: '\x60' :: '\x60' :: post)) ∧
        '\n' ∉ tag ∧ g = rstripNL g0) ∧
    (∀ s : List Char, '\n' ∉ s → extract_fenced_code s = none) ∧
    extract_fenced_code ("```x```".toList) = none := by
  have hdec : ∀ s g : List Char, extract_fenced_code s = some g →
      ∃ u tag g0 post, s = u ++ '\x60' :: '\x60' :: '\x60' ::
        (tag ++ '\n' :: (g0 ++ '\x60' :: '\x60' :: '\x60' :: post)) ∧
        '\n' ∉ tag ∧ g = rstripNL g0 := by
    intro s g h
    rw [extract_fenced_code] at h
    cases hs : searchFence s with
    | none => rw [hs] at h; exact absurd h (by simp)
    | some g0 =>
        rw [hs] at h
        obtain rfl : rstripNL g0 = g := by simpa using h
        obtain ⟨u, tag, post, h1, h2⟩ := searchFence_decomp hs
        exact ⟨u, tag, g0, post, h1, h2, rfl⟩
  refine ⟨hdec, fun s hs => ?_, by decide⟩
  cases h : extract_fenced_code s with
  | none => rfl
  | some g =>
      obtain ⟨u, tag, g0, post, h1, _, _⟩ := hdec s g h
      exact absurd (h1 ▸ hs) (by simp)

/-- Witness for C10: the decomposition applied to a well-formed fence. -/
theorem C10_witness :
    ∃ u tag g0 post, ("```\nab\n```".toList) = u ++ '\x60' :: '\x60' :: '\x60' ::
      (tag ++ '\n' :: (g0 ++ '\x60' :: '\x60' :: '\x60' :: post)) ∧
      '\n' ∉ tag ∧ ("ab".toList) = rstripNL g0 :=
  C10_opening_fence_needs_newline.1 ("```\nab\n```".toList) ("ab".toList) (by decide)

/-! Lemmas about the section splitter. -/

theorem replaceCRLF_mem {c : Char} : ∀ {l : List Char}, c ∈ replaceCRLF l → c ∈ l := by
  intro l
  induction l using replaceCRLF.induct with
  | case1 rest ih =>
      intro h
      rw [replaceCRLF.eq_1] at h
      rcases List.mem_cons.mp h with h | h
      · subst h; simp
      · simp [ih h]
  | case2 a rest hne ih =>
      intro h
      rw [replaceCRLF.eq_2 a rest hne] at h
      rcases List.mem_cons.mp h with h | h
      · subst h; simp
      · simp [ih h]
  | case3 =>
      intro h
      rwa [replaceCRLF.eq_3] at h

theorem matchHashes_mem {s rem : List Char} (h : matchHashes s = some rem) :
    ∀ c ∈ rem, c ∈ s := by
  rcases s with _ | ⟨a, _ | ⟨b, _ | ⟨c0, _ | ⟨d, rest⟩⟩⟩⟩
  · simp [matchHashes] at h
  · simp [matchHashes] at h
  · simp [matchHashes] at h
  · simp [matchHashes] at h
  · rw [matchHashes] at h
    by_cases hcond : a = '#' ∧ b = '#' ∧ c0 = '#' ∧ pySpace d = true
    · rw [if_pos hcond] at h
      obtain rfl : rest.dropWhile pySpace = rem := by simpa using h
      intro c hc
      have : c ∈ rest := mem_of_mem_dropWhile hc
      simp [this]
    · rw [if_neg hcond] at h
      cases h

theorem matchMarker_mem {s rem : List Char} (h : matchMarker s = some rem) :
    ∀ c ∈ rem, c ∈ s := by
  cases s with
  | nil => simp [matchMarker] at h
  | cons a rest =>
      rw [matchMarker] at h
      by_cases ha : a = '\n'
      · rw [if_pos ha] at h
        intro c hc
        exact List.mem_cons_of_mem _ (matchHashes_mem h c hc)
      · rw [if_neg ha] at h
        intro c hc
        exact matchHashes_mem h c hc

theorem reSplitAux_mem : ∀ (fuel : Nat) (acc s ch : List Char),
    ch ∈ reSplitAux fuel acc s → ∀ c ∈ ch, c ∈ acc ∨ c ∈ s := by
  intro fuel
  induction fuel with
  | zero =>
      intro acc s ch hch c hc
      have hch' : ch = acc.reverse ++ s := by simpa [reSplitAux] using hch
      subst hch'
      rcases List.mem_append.mp hc with h | h
      · exact Or.inl (List.mem_reverse.mp h)
      · exact Or.inr h
  | succ fuel ih =>
      intro acc s ch hch c hc
      cases s with
      | nil =>
          rw [reSplitAux.eq_2] at hch
          have hm : matchMarker [] = none := rfl
          rw [hm] at hch
          have hch' : ch = acc.reverse := by simpa using hch
          subst hch'
          exact Or.inl (List.mem_reverse.mp hc)
      | cons a rest =>
          rw [reSplitAux.eq_3] at hch
          cases hm : matchMarker (a :: rest) with
          | some rem =>
              rw [hm] at hch
              rcases List.mem_cons.mp hch with h | h
              · subst h
                exact Or.inl (List.mem_reverse.mp hc)
              · rcases ih [] rem ch h c hc with h' | h'
                · exact absurd h' (List.not_mem_nil c)
                · exact Or.inr (matchMarker_mem hm c h')
          | none =>
              rw [hm] at hch
              rcases ih (a :: acc) rest ch hch c hc with h' | h'
              · rcases List.mem_cons.mp h' with h'' | h''
                · exact Or.inr (h'' ▸ List.mem_cons_self a rest)
                · exact Or.inl h''
              · exact Or.inr (List.mem_cons_of_mem a h')

theorem matchG1_colon {ch : List Char} {p : List Char × List Char}
    (h : matchG1 ch = some p) : ':' ∈ ch := by
  rw [matchG1] at h
  by_cases he : (ch.takeWhile notColonNL).isEmpty
  · rw [if_pos he] at h; cases h
  · rw [if_neg he] at h
    cases hd : ch.dropWhile notColonNL with
    | nil => rw [hd] at h; cases h
    | cons c rest =>
        rw [hd] at h
        by_cases hc : c = ':'
        · subst hc
          exact mem_of_mem_dropWhile (hd ▸ List.mem_cons_self ':' rest)
        · simp [hc] at h

theorem chunkEntry_none_of_no_colon {ch : List Char} (h : ':' ∉ ch) :
    chunkEntry ch = none := by
  have hg : matchG1 ch = none := by
    cases hm : matchG1 ch with
    | none => rfl
    | some p => exact absurd (matchG1_colon hm) h
  rw [chunkEntry]
  by_cases he : (pyStrip ch).isEmpty
  · rw [if_pos he]
  · rw [if_neg he, matchStrict, hg, matchFallback, hg]

/-- C1, corrected: a text with no colon at all (whatever its `###` markers)
yields an empty mapping, but a marker-free preamble whose first line has the
form `name: value` is not dropped — it contributes an entry like any
chunk. -/
theorem C1_preamble_parsed_like_a_chunk :
    (∀ t : List Char, ':' ∉ t → split_sections t = []) ∧
    split_sections ("a: b".toList) = [(("a".toList), ("b".toList))] := by
  constructor
  · intro t h
    have hn : ':' ∉ replaceCRLF t := fun hc => h (replaceCRLF_mem hc)
    have hall : ∀ ch ∈ reSplitMarker (replaceCRLF t), chunkEntry ch = none := by
      intro ch hch
      rw [reSplitMarker] at hch
      apply chunkEntry_none_of_no_colon
      intro hc
      rcases reSplitAux_mem _ _ _ ch hch ':' hc with h' | h'
      · exact absurd h' (List.not_mem_nil _)
      · exact hn h'
    rw [split_sections, sectionEntries, List.filterMap_eq_nil_iff.mpr hall]
    rfl
  · decide

/-- Counterexample to C1 as stated: `"a: b"` has no `'#'` at all, hence no
heading marker, yet the mapping is nonempty. -/
theorem C1_counterexample :
    ('#' ∉ ("a: b".toList)) ∧ split_sections ("a: b".toList) ≠ [] ∧
    split_sections ("a: b".toList) = [(("a".toList), ("b".toList))] := by
  refine ⟨by decide, by decide, by decide⟩

/-- Witness for C1: the colon-free case applied to a concrete text. -/
theorem C1_witness : split_sections ("no heading here\njust prose\n".toList) = [] :=
  C1_preamble_parsed_like_a_chunk.1 ("no heading here\njust prose\n".toList) (by decide)

/-! Lemmas about the dict built by the splitter loop. -/

theorem dictGet_dictInsert : ∀ (d : List (List Char × List Char)) (k v k' : List Char),
    dictGet (dictInsert k v d) k' = if k = k' then some v else dictGet d k' := by
  intro d
  induction d with
  | nil => intro k v k'; rfl
  | cons p rest ih =>
      intro k v k'
      obtain ⟨k0, v0⟩ := p
      by_cases h0 : k0 = k
      · subst h0
        by_cases hk : k0 = k'
        · simp [dictInsert, dictGet, hk]
        · simp [dictInsert, dictGet, hk]
      · by_cases h0' : k0 = k'
        · have hk : k ≠ k' := fun hh => h0 (h0'.trans hh.symm)
          have hk2 : k' ≠ k := fun hh => hk hh.symm
          simp [dictInsert, dictGet, h0, h0', hk, hk2]
        · simp [dictInsert, dictGet, h0, h0', ih]

theorem foldl_dictInsert_get :
    ∀ (es : List (List Char × List Char)) (d : List (List Char × List Char))
      (k : List Char),
    dictGet (es.foldl (fun d kv => dictInsert kv.1 kv.2 d) d) k =
      match lastLookup es k with
      | some v => some v
      | none => dictGet d k := by
  intro es
  induction es with
  | nil => intro d k; rfl
  | cons p rest ih =>
      intro d k
      obtain ⟨k0, v0⟩ := p
      rw [List.foldl_cons, ih, lastLookup]
      cases h : lastLookup rest k with
      | some v => rfl
      | none =>
          rw [dictGet_dictInsert]
          by_cases h0 : k0 = k
          · simp [h0]
          · simp [h0]

theorem mem_keys_dictInsert : ∀ {d : List (List Char × List Char)} {k' k v : List Char},
    k' ∈ (dictInsert k v d).map Prod.fst → k' = k ∨ k' ∈ d.map Prod.fst := by
  intro d
  induction d with
  | nil => intro k' k v h; simpa [dictInsert] using h
  | cons p rest ih =>
      intro k' k v h
      obtain ⟨k0, v0⟩ := p
      by_cases h0 : k0 = k
      · rw [dictInsert, if_pos h0] at h
        rcases List.mem_cons.mp h with h1 | h1
        · exact Or.inl h1
        · exact Or.inr (List.mem_cons_of_mem _ h1)
      · rw [dictInsert, if_neg h0] at h
        rcases List.mem_cons.mp h with h1 | h1
        · exact Or.inr (h1 ▸ List.mem_cons_self _ _)
        · rcases ih h1 with h2 | h2
          · exact Or.inl h2
          · exact Or.inr (List.mem_cons_of_mem _ h2)

theorem nodup_keys_dictInsert : ∀ {d : List (List Char × List Char)} {k v : List Char},
    (d.map Prod.fst).Nodup → ((dictInsert k v d).map Prod.fst).Nodup := by
  intro d
  induction d with
  | nil => intro k v _; simp [dictInsert]
  | cons p rest ih =>
      intro k v h
      obtain ⟨k0, v0⟩ := p
      rw [List.map_cons, List.nodup_cons] at h
      by_cases h0 : k0 = k
      · subst h0
        rw [dictInsert, if_pos rfl, List.map_cons, List.nodup_cons]
        exact ⟨h.1, h.2⟩
      · rw [dictInsert, if_neg h0, List.map_cons, List.nodup_cons]
        refine ⟨fun hmem => ?_, ih h.2⟩
        rcases mem_keys_dictInsert hmem with h' | h'
        · exact h0 h'
        · exact h.1 h'

theorem nodup_keys_foldl :
    ∀ (es d : List (List Char × List Char)), (d.map Prod.fst).Nodup →
    ((es.foldl (fun d kv => dictInsert kv.1 kv.2 d) d).map Prod.fst).Nodup := by
  intro es
  induction es with
  | nil => intro d h; exact h
  | cons p rest ih =>
      intro d h
      rw [List.foldl_cons]
      exact ih _ (nodup_keys_dictInsert h)

theorem mem_dictInsert : ∀ {d : List (List Char × List Char)}
    {kv : List Char × List Char} {k v : List Char},
    kv ∈ dictInsert k v d → kv = (k, v) ∨ kv ∈ d := by
  intro d
  induction d with
  | nil => intro kv k v h; simpa [dictInsert] using h
  | cons p rest ih =>
      intro kv k v h
      obtain ⟨k0, v0⟩ := p
      by_cases h0 : k0 = k
      · rw [dictInsert, if_pos h0] at h
        rcases List.mem_cons.mp h with h1 | h1
        · exact Or.inl h1
        · exact Or.inr (List.mem_cons_of_mem _ h1)
      · rw [dictInsert, if_neg h0] at h
        rcases List.mem_cons.mp h with h1 | h1
        · exact Or.inr (h1 ▸ List.mem_cons_self _ _)
        · rcases ih h1 with h2 | h2
          · exact Or.inl h2
          · exact Or.inr (List.mem_cons_of_mem _ h2)

theorem mem_foldl_dictInsert :
    ∀ (es d : List (List Char × List Char)) (kv : List Char × List Char),
    kv ∈ es.foldl (fun d kv => dictInsert kv.1 kv.2 d) d → kv ∈ d ∨ kv ∈ es := by
  intro es
  induction es with
  | nil => intro d kv h; exact Or.inl h
  | cons p rest ih =>
      intro d kv h
      rw [List.foldl_cons] at h
      rcases ih _ kv h with h' | h'
      · rcases mem_dictInsert h' with h'' | h''
        · exact Or.inr (h'' ▸ List.mem_cons_self _ _)
        · exact Or.inl h''
      · exact Or.inr (List.mem_cons_of_mem _ h')

/-- C5: over any input text, the keys of the mapping `split_sections`
returns are pairwise distinct, and looking a key up yields the value of the
last chunk that assigned it (last write wins). -/
theorem C5_last_write_wins (t : List Char) :
    ((split_sections t).map Prod.fst).Nodup ∧
    ∀ k, dictGet (split_sections t) k = lastLookup (sectionEntries t) k := by
  constructor
  · exact nodup_keys_foldl _ [] (by simp)
  · intro k
    rw [split_sections, foldl_dictInsert_get]
    cases h : lastLookup (sectionEntries t) k with
    | some v => rfl
    | none => rfl

/-- Witness for C5: the duplicated heading `A` resolves to the later
content. -/
theorem C5_witness :
    dictGet (split_sections ("### A: x\n### A: y".toList)) ("A".toList) =
      some ("y".toList) := by
  rw [(C5_last_write_wins ("### A: x\n### A: y".toList)).2 ("A".toList)]
  decide

theorem matchG1_some {ch g1 rest : List Char}
    (h : matchG1 ch = some (g1, rest)) : g1 = ch.takeWhile notColonNL := by
  rw [matchG1] at h
  by_cases he : (ch.takeWhile notColonNL).isEmpty
  · rw [if_pos he] at h; cases h
  · rw [if_neg he] at h
    cases hd : ch.dropWhile notColonNL with
    | nil => rw [hd] at h; cases h
    | cons c r =>
        rw [hd] at h
        by_cases hc : c = ':'
        · simp only [if_pos hc] at h
          exact (congrArg Prod.fst (Option.some.inj h)).symm
        · simp [hc] at h

theorem matchStrict_g1 {ch g1 g2 : List Char}
    (h : matchStrict ch = some (g1, g2)) : g1 = ch.takeWhile notColonNL := by
  rw [matchStrict] at h
  cases hg : matchG1 ch with
  | none => rw [hg] at h; cases h
  | some p =>
      obtain ⟨g1', rest⟩ := p
      rw [hg] at h
      replace h : (match afterLastNL (rest.takeWhile pySpace) with
          | some tail => some (g1', tail ++ rest.dropWhile pySpace)
          | none => none) = some (g1, g2) := h
      cases ha : afterLastNL (rest.takeWhile pySpace) with
      | none => rw [ha] at h; cases h
      | some tail =>
          rw [ha] at h
          have h1 : g1' = g1 := congrArg Prod.fst (Option.some.inj h)
          exact h1 ▸ matchG1_some hg

theorem matchFallback_g1 {ch g1 g2 : List Char}
    (h : matchFallback ch = some (g1, g2)) : g1 = ch.takeWhile notColonNL := by
  rw [matchFallback] at h
  cases hg : matchG1 ch with
  | none => rw [hg] at h; cases h
  | some p =>
      obtain ⟨g1', rest⟩ := p
      rw [hg] at h
      replace h : some (g1', rest.dropWhile pySpace) = some (g1, g2) := h
      have h1 : g1' = g1 := congrArg Prod.fst (Option.some.inj h)
      exact h1 ▸ matchG1_some hg

theorem chunkEntry_shape {ch k v : List Char} (h : chunkEntry ch = some (k, v)) :
    (∀ c ∈ k, notColonNL c = true) ∧ pyStrip k = k ∧ pyStrip v = v := by
  rw [chunkEntry] at h
  by_cases he : (pyStrip ch).isEmpty
  · rw [if_pos he] at h; cases h
  · rw [if_neg he] at h
    have hmain : ∀ g1 g2 : List Char, g1 = ch.takeWhile notColonNL →
        (pyStrip g1, pyStrip g2) = (k, v) →
        (∀ c ∈ k, notColonNL c = true) ∧ pyStrip k = k ∧ pyStrip v = v := by
      intro g1 g2 hg1 hkv
      have hk : pyStrip g1 = k := congrArg Prod.fst hkv
      have hv : pyStrip g2 = v := congrArg Prod.snd hkv
      refine ⟨?_, hk ▸ pyStrip_idem g1, hv ▸ pyStrip_idem g2⟩
      intro c hc
      have : c ∈ g1 := pyStrip_mem (hk ▸ hc)
      exact List.mem_takeWhile_imp (hg1 ▸ this)
    cases hs : matchStrict ch with
    | some p =>
        obtain ⟨g1, g2⟩ := p
        rw [hs] at h
        replace h : some (pyStrip g1, pyStrip g2) = some (k, v) := h
        exact hmain g1 g2 (matchStrict_g1 hs) (Option.some.inj h)
    | none =>
        rw [hs] at h
        replace h : (match matchFallback ch with
            | some (g1, g2) => some (pyStrip g1, pyStrip g2)
            | none => none) = some (k, v) := h
        cases hf : matchFallback ch with
        | some p =>
            obtain ⟨g1, g2⟩ := p
            rw [hf] at h
            replace h : some (pyStrip g1, pyStrip g2) = some (k, v) := h
            exact hmain g1 g2 (matchFallback_g1 hf) (Option.some.inj h)
        | none => rw [hf] at h; cases h

/-- C9: every key of the mapping `split_sections` returns contains neither a
colon nor a newline and carries no leading or trailing whitespace, and every
value carries no leading or trailing whitespace. -/
theorem C9_mapping_invariants (t k v : List Char)
    (h : (k, v) ∈ split_sections t) :
    ':' ∉ k ∧ '\n' ∉ k ∧ pyStrip k = k ∧ pyStrip v = v := by
  rw [split_sections] at h
  rcases mem_foldl_dictInsert _ _ _ h with h' | h'
  · exact absurd h' (List.not_mem_nil _)
  · rw [sectionEntries] at h'
    obtain ⟨ch, hch, hce⟩ := List.mem_filterMap.mp h'
    obtain ⟨hkey, hk, hv⟩ := chunkEntry_shape hce
    refine ⟨fun hc => ?_, fun hc => ?_, hk, hv⟩
    · have := hkey ':' hc
      simp [notColonNL] at this
    · have := hkey '\n' hc
      simp [notColonNL] at this

/-- Witness for C9: the invariant at the entry `("A", "x")` parsed from
`"### A: x"`. -/
theorem C9_witness :
    ':' ∉ ("A".toList) ∧ '\n' ∉ ("A".toList) ∧
    pyStrip ("A".toList) = ("A".toList) ∧ pyStrip ("x".toList) = ("x".toList) :=
  C9_mapping_invariants ("### A: x".toList) ("A".toList) ("x".toList) (by decide)

/-- C2, corrected: a bullet line is one whose whitespace-stripped form
starts with `"- "` — not one literally starting with `"- "` — and the item
kept is the original line minus its first two characters, then stripped.
The claim's example still yields `["a", "b"]`, and the plain-paragraph
fallback is taken exactly when no such line exists. -/
theorem C2_bullet_lines_amended :
    bulletItems ("- a\n- b\nnote".toList) = [("a".toList), ("b".toList)] ∧
    (∀ content : List Char, bulletItems content = [] ↔
      ∀ ln ∈ splitlines content, ("- ".toList).isPrefixOf (pyStrip ln) = false) ∧
    (∀ content ln : List Char, ln ∈ splitlines content →
      ("- ".toList).isPrefixOf (pyStrip ln) = true →
      pyStrip (ln.drop 2) ∈ bulletItems content) ∧
    (∀ key content : List Char, key ∈ listKeys →
      renderSection key content = DocElem.heading key ::
        (if (bulletItems content).isEmpty then [DocElem.para content]
         else (bulletItems content).map DocElem.listItem)) := by
  refine ⟨by decide, fun content => ?_, fun content ln h1 h2 => ?_,
    fun key content hk => ?_⟩
  · rw [bulletItems, List.filterMap_eq_nil_iff]
    constructor
    · intro hall ln hln
      rcases Bool.eq_false_or_eq_true (("- ".toList).isPrefixOf (pyStrip ln)) with hp | hp
      · have := hall ln hln
        rw [if_pos hp] at this
        exact absurd this (by simp)
      · exact hp
    · intro hall ln hln
      rw [if_neg (by simp only [hall ln hln]; simp)]
  · rw [bulletItems, List.mem_filterMap]
    refine ⟨ln, h1, ?_⟩
    show (if ("- ".toList).isPrefixOf (pyStrip ln) = true
        then some (pyStrip (ln.drop 2)) else none) = some (pyStrip (ln.drop 2))
    rw [if_pos h2]
  · rw [renderSection, if_pos hk]

/-- Counterexample to C2 as stated: the line `"  - a"` does not literally
start with `"- "`, yet it yields an item, and that item still carries the
bullet marker. -/
theorem C2_counterexample :
    bulletItems ("  - a".toList) = [("- a".toList)] ∧
    ("- ".toList).isPrefixOf ("  - a".toList) = false := by
  refine ⟨by decide, by decide⟩

/-- Witness for C2: membership of the stripped item for a stripped-bullet
line. -/
theorem C2_witness :
    pyStrip (("- c".toList).drop 2) ∈ bulletItems ("x\n- c".toList) :=
  C2_bullet_lines_amended.2.2.1 ("x\n- c".toList) ("- c".toList)
    (by decide) (by decide)

/-- C3, corrected: the assembled document always embeds the
`exampleFallback` segment between the section loop and the appendix, and
that segment is nonempty exactly when the mapping has the key
`"Exemplo de Uso"`, the fenced code of that entry's content is falsy
(absent or empty), and the fenced code of the whole original text is truthy
— the mere presence of an unconsumed fenced block does not suffice.  When
it is nonempty it is the synthesized heading followed by the code block. -/
theorem C3_fallback_amended :
    (∀ md srcName src : List Char, ∀ inc : Bool, ∃ pre post : List DocElem,
      build md srcName src inc =
        pre ++ exampleFallback (split_sections md) (extract_fenced_code md) ++ post) ∧
    (∀ (sections : List (List Char × List Char)) (code : Option (List Char)),
      (exampleFallback sections code).isEmpty = false ↔
        ((dictGet sections ("Exemplo de Uso".toList)).isSome = true ∧
         pyTruthy (extract_fenced_code
           ((dictGet sections ("Exemplo de Uso".toList)).getD [])) = false ∧
         pyTruthy code = true)) ∧
    (∀ (sections : List (List Char × List Char)) (code : Option (List Char)),
      (exampleFallback sections code).isEmpty = false →
      exampleFallback sections code =
        DocElem.heading ("Exemplo de Uso".toList) :: add_code_block (code.getD [])) := by
  refine ⟨fun md srcName src inc => ?_, fun sections code => ?_,
    fun sections code h => ?_⟩
  · exact ⟨buildTitle (split_sections md) srcName :: buildLoop (split_sections md),
      buildTail src inc, by rw [build]; simp [List.cons_append, List.append_assoc]⟩
  · cases hd : dictGet sections ("Exemplo de Uso".toList) with
    | none => rw [exampleFallback.eq_def, hd]; simp [hd]
    | some content =>
        by_cases hex : pyTruthy (extract_fenced_code content) = true
        · rw [exampleFallback.eq_def, hd]; simp [hd, hex]
        · have hex' : pyTruthy (extract_fenced_code content) = false := by
            simpa using hex
          cases code with
          | none => rw [exampleFallback.eq_def, hd]; simp [hd, hex', pyTruthy]
          | some c =>
              by_cases hc : c.isEmpty
              · rw [exampleFallback.eq_def, hd]; simp [hd, hex', hc, pyTruthy]
              · rw [exampleFallback.eq_def, hd]; simp [hd, hex', hc, pyTruthy]
  · cases hd : dictGet sections ("Exemplo de Uso".toList) with
    | none => rw [exampleFallback.eq_def, hd] at h; simp at h
    | some content =>
        by_cases hex : pyTruthy (extract_fenced_code content) = true
        · rw [exampleFallback.eq_def, hd] at h
          simp [hex] at h
        · have hex' : pyTruthy (extract_fenced_code content) = false := by
            simpa using hex
          cases code with
          | none => rw [exampleFallback.eq_def, hd] at h; simp [hex'] at h
          | some c =>
              by_cases hc : c.isEmpty
              · rw [exampleFallback.eq_def, hd] at h
                simp [hex', hc] at h
              · rw [exampleFallback.eq_def, hd]
                simp [hex', hc]

/-- Counterexample to C3 as stated: the text's `Título` section hides a
fenced block, the `"Exemplo de Uso"` path consumed nothing (the key is
absent), yet no synthesized example heading or code line is appended. -/
theorem C3_counterexample :
    extract_fenced_code ("### Título:\nT\n```python\nx\n```".toList) =
      some ("x".toList) ∧
    DocElem.heading ("Exemplo de Uso".toList) ∉
      build ("### Título:\nT\n```python\nx\n```".toList)
        ("s.py".toList) ("print(2)".toList) false ∧
    DocElem.codeLine ("x".toList) ∉
      build ("### Título:\nT\n```python\nx\n```".toList)
        ("s.py".toList) ("print(2)".toList) false := by
  refine ⟨by decide, by decide, by decide⟩

/-- Witness for C3: the firing condition evaluated on a concrete document
whose example section holds prose and whose text holds a fenced block. -/
theorem C3_witness :
    exampleFallback
      (split_sections ("### Exemplo de Uso:\nveja\n### Descrição:\nD\n```py\ncode\n```".toList))
      (extract_fenced_code ("### Exemplo de Uso:\nveja\n### Descrição:\nD\n```py\ncode\n```".toList)) =
    DocElem.heading ("Exemplo de Uso".toList) ::
      add_code_block ((extract_fenced_code
        ("### Exemplo de Uso:\nveja\n### Descrição:\nD\n```py\ncode\n```".toList)).getD []) :=
  C3_fallback_amended.2.2 _ _ (by decide)
